import Mathlib

/-!
Verification of the trade-leadership matching engine of a prediction-market
trader-comparison tool.  The embedding mirrors three TypeScript sources:

* `compareTraders.ts` — `findMatchingTrades` and `calculateSummaries`
  (pairwise leadership matcher and per-trader summary aggregator);
* a leader-trader finder (`analyzeMarkets`, `rankTraders`, and the
  online-average update on `TraderStats`);
* a find-first-trader script (`fetchMarketTrades` normalizer and the
  first-touch grouper `traderOrder`).

JavaScript `Map`s iterate in insertion order; they are modelled as
association lists whose new keys are appended at the end.  JavaScript's
`Array.prototype.sort` is stable; it is modelled by `List.insertionSort`,
which is likewise stable.  Machine floats are modelled by `ℚ` (the claims
are about exact arithmetic identities), except where a claim is about
JavaScript's coercion behaviour, where an explicit value model `JsVal`
with a NaN constructor is used.
-/

namespace CompareTraders

/-- Trade side as in the `'BUY' | 'SELL'` union of the source. -/
inductive Side where
  | BUY : Side
  | SELL : Side
deriving DecidableEq

instance : Inhabited Side := ⟨Side.BUY⟩

/-- The `Trade` interface of `compareTraders.ts`. -/
structure Trade where
  id : String
  timestamp : ℤ
  market : String
  conditionId : String
  asset : String
  side : Side
  price : ℚ
  usdcSize : ℚ
  size : ℚ
  outcome : String
deriving DecidableEq

instance : Inhabited Trade := ⟨⟨"", 0, "", "", "", Side.BUY, 0, 0, 0, ""⟩⟩

/-- The `TraderTrades` interface: one trader's address and trade list. -/
structure TraderTrades where
  address : String
  trades : List Trade
deriving DecidableEq

/-- One element of `MatchedTrade.traderTrades` in the source. -/
structure TTEntry where
  address : String
  trade : Trade
  timestamp : ℤ
  side : Side
  price : ℚ
  usdcSize : ℚ
deriving DecidableEq

/-- One element of `MatchedTrade.timeDiffs` in the source. -/
structure TimeDiff where
  trader1 : String
  trader2 : String
  diffSeconds : ℤ
  leader : String
deriving DecidableEq

/-- The `MatchedTrade` interface of `compareTraders.ts`. -/
structure MatchedTrade where
  conditionId : String
  market : String
  outcome : String
  traderTrades : List TTEntry
  timeDiffs : List TimeDiff
deriving DecidableEq

instance : Inhabited MatchedTrade := ⟨⟨"", "", "", [], []⟩⟩

/-- The update `conditionMap.get(trader.address)!.push(trade)`, creating the
entry with a fresh empty array when absent (`conditionMap.set(trader.address, [])`).  New
keys go to the end, as in a JS `Map`. -/
def pushInner (m : List (String × List Trade)) (addr : String) (t : Trade) :
    List (String × List Trade) :=
  match m with
  | [] => [(addr, [t])]
  | (a, ts) :: rest =>
    if a = addr then (a, ts ++ [t]) :: rest else (a, ts) :: pushInner rest addr t

/-- The outer `tradesByCondition` map update keyed by `trade.conditionId`. -/
def pushOuter (gs : List (String × List (String × List Trade)))
    (cid addr : String) (t : Trade) : List (String × List (String × List Trade)) :=
  match gs with
  | [] => [(cid, pushInner [] addr t)]
  | (c, m) :: rest =>
    if c = cid then (c, pushInner m addr t) :: rest
    else (c, m) :: pushOuter rest cid addr t

/-- The grouping loop of `findMatchingTrades` (lines 176–189): group all
trades by `conditionId`, then by trader address, in insertion order. -/
def tradesByCondition (td : List TraderTrades) :
    List (String × List (String × List Trade)) :=
  td.foldl (fun gs tr =>
    tr.trades.foldl (fun gs2 t => pushOuter gs2 t.conditionId tr.address t) gs) []

/-- The expression `trades.sort((a, b) => a.timestamp - b.timestamp)[0]`: the stable
timestamp sort followed by taking the first element. -/
def firstTradeForCondition (trades : List Trade) : Trade :=
  (List.insertionSort (fun a b => a.timestamp ≤ b.timestamp) trades).headD default

/-- Build one `allTraderTrades` entry from a trader's per-condition list. -/
def mkEntry (addr : String) (trades : List Trade) : TTEntry :=
  let f := firstTradeForCondition trades
  ⟨addr, f, f.timestamp, f.side, f.price, f.usdcSize⟩

/-- All ordered pairs `(i, j)` with `i < j`, in the order of the double loop
`for i ... for j = i+1 ...` of the source. -/
def allPairs : List α → List (α × α)
  | [] => []
  | x :: xs => xs.map (fun y => (x, y)) ++ allPairs xs

/-- The body of the pair loop: `diff = t2.timestamp - t1.timestamp`; keep the
pair only when `Math.abs(diff) <= timeWindowSeconds`, with
`leader: diff <= 0 ? t2.address : t1.address`. -/
def mkDiff (timeWindowSeconds : ℤ) (p : TTEntry × TTEntry) : Option TimeDiff :=
  let diff := p.2.timestamp - p.1.timestamp
  if |diff| ≤ timeWindowSeconds then
    some ⟨p.1.address, p.2.address, diff, if diff ≤ 0 then p.2.address else p.1.address⟩
  else none

/-- The `allTraderTrades` list of one condition: one first-touch entry per
participating trader, in map insertion order. -/
def condEntries (m : List (String × List Trade)) : List TTEntry :=
  m.map (fun p => mkEntry p.1 p.2)

/-- The surviving pairwise gap records of one condition. -/
def condTimeDiffs (timeWindowSeconds : ℤ) (m : List (String × List Trade)) :
    List TimeDiff :=
  (allPairs (condEntries m)).filterMap (mkDiff timeWindowSeconds)

/-- The `MatchedTrade` pushed for a qualifying condition. -/
def mkMatched (timeWindowSeconds : ℤ)
    (g : String × List (String × List Trade)) : MatchedTrade :=
  let firstTrade := (g.2.headD ("", [])).2.headD default
  ⟨g.1, firstTrade.market, firstTrade.outcome, condEntries g.2,
    condTimeDiffs timeWindowSeconds g.2⟩

/-- The per-condition body of `findMatchingTrades`: skip conditions with
fewer than 2 traders, build the first-touch entries, filter the pairwise
time differences by the window, and emit a `MatchedTrade` only when at
least one pair survived. -/
def processCondition (timeWindowSeconds : ℤ)
    (g : String × List (String × List Trade)) : Option MatchedTrade :=
  if g.2.length < 2 then none
  else if condTimeDiffs timeWindowSeconds g.2 = [] then none
  else some (mkMatched timeWindowSeconds g)

/-- The value `Math.min(...m.traderTrades.map(t => t.timestamp))`. -/
def minTime (m : MatchedTrade) : ℤ :=
  match m.traderTrades.map (fun t => t.timestamp) with
  | [] => 0
  | x :: xs => xs.foldl min x

/-- The function `findMatchingTrades` (lines 174–253): group, match per condition, and
sort the result by earliest participant timestamp, most recent first
(comparator `bTime - aTime`, stable). -/
def findMatchingTrades (timeWindowHours : ℤ) (td : List TraderTrades) :
    List MatchedTrade :=
  let timeWindowSeconds := timeWindowHours * 3600
  List.insertionSort (fun a b => minTime b ≤ minTime a)
    ((tradesByCondition td).filterMap (processCondition timeWindowSeconds))

/-- The `ComparisonSummary` interface of `compareTraders.ts`. -/
structure ComparisonSummary where
  trader : String
  totalTrades : ℕ
  matchedTrades : ℕ
  timesFirst : ℕ
  avgLeadTimeSeconds : ℚ
  avgFollowTimeSeconds : ℚ
deriving DecidableEq

/-- The mutable counters of the per-trader loop of `calculateSummaries`. -/
structure SummaryAcc where
  timesFirst : ℕ
  totalLeadTime : ℤ
  leadCount : ℕ
  totalFollowTime : ℤ
  followCount : ℕ
  matchedTradeCount : ℕ
deriving DecidableEq

/-- The body of the time-difference loop of `calculateSummaries`: skip
records not touching the trader, then fold into the lead or follow
totals depending on whether the trader is the recorded leader. -/
def diffStep (addr : String) (a : SummaryAcc) (d : TimeDiff) : SummaryAcc :=
  if d.trader1 ≠ addr ∧ d.trader2 ≠ addr then a
  else if d.leader = addr then
    { a with timesFirst := a.timesFirst + 1,
             totalLeadTime := a.totalLeadTime + |d.diffSeconds|,
             leadCount := a.leadCount + 1 }
  else
    { a with totalFollowTime := a.totalFollowTime + |d.diffSeconds|,
             followCount := a.followCount + 1 }

/-- The per-`MatchedTrade` body of `calculateSummaries` (lines 269–291):
skip matches the trader is not part of, count the match, and fold every
time difference touching the trader into the lead or follow totals. -/
def summaryStep (addr : String) (acc : SummaryAcc) (m : MatchedTrade) :
    SummaryAcc :=
  match m.traderTrades.find? (fun t => t.address == addr) with
  | none => acc
  | some _ =>
    m.timeDiffs.foldl (diffStep addr)
      { acc with matchedTradeCount := acc.matchedTradeCount + 1 }

/-- One trader's `ComparisonSummary`, including the zero-count guards
`leadCount > 0 ? totalLeadTime / leadCount : 0`. -/
def summaryFor (matched : List MatchedTrade) (tr : TraderTrades) :
    ComparisonSummary :=
  let acc := matched.foldl (summaryStep tr.address)
    ⟨0, 0, 0, 0, 0, 0⟩
  ⟨tr.address, tr.trades.length, acc.matchedTradeCount, acc.timesFirst,
    if 0 < acc.leadCount then (acc.totalLeadTime : ℚ) / (acc.leadCount : ℚ) else 0,
    if 0 < acc.followCount then (acc.totalFollowTime : ℚ) / (acc.followCount : ℚ) else 0⟩

/-- The function `calculateSummaries` (lines 255–304), with the final stable sort by
`timesFirst` descending. -/
def calculateSummaries (matched : List MatchedTrade) (traderData : List TraderTrades) :
    List ComparisonSummary :=
  List.insertionSort (fun a b => b.timesFirst ≤ a.timesFirst)
    (traderData.map (fun tr => summaryFor matched tr))

/-- Whether the trader appears among a matched market's participants. -/
def participates (addr : String) (m : MatchedTrade) : Bool :=
  (m.traderTrades.find? (fun t => t.address == addr)).isSome

/-- The absolute gaps of the records of a time-difference list that touch
the trader and name the trader as leader. -/
def leadDiffs (addr : String) (ds : List TimeDiff) : List ℤ :=
  (ds.filter
      (fun d => (d.trader1 == addr || d.trader2 == addr) && d.leader == addr)).map
    (fun d => |d.diffSeconds|)

/-- The absolute gaps of the records of a time-difference list that touch
the trader but name someone else as leader. -/
def followDiffs (addr : String) (ds : List TimeDiff) : List ℤ :=
  (ds.filter
      (fun d => (d.trader1 == addr || d.trader2 == addr) && !(d.leader == addr))).map
    (fun d => |d.diffSeconds|)

/-- Specification-side list: the absolute gaps of every time difference in
which the trader participates and is recorded as the leader, taken over the
matched markets the trader appears in (spec 4.4: "fold over every
MatchedMarket in which they appear ... for every gap record touching this
trader"). -/
def leadGaps (addr : String) (matched : List MatchedTrade) : List ℤ :=
  (matched.filter (participates addr)).flatMap (fun m => leadDiffs addr m.timeDiffs)

/-- Specification-side list: the absolute gaps of gap records in which the
trader participates but is not the leader. -/
def followGaps (addr : String) (matched : List MatchedTrade) : List ℤ :=
  (matched.filter (participates addr)).flatMap (fun m => followDiffs addr m.timeDiffs)

end CompareTraders

namespace LeaderFinder

/-- The `TraderStats` interface of the leader-trader finder.  The JS `Set`
of markets is modelled as the list of inserted keys. -/
structure TraderStats where
  address : String
  timesFirst : ℕ
  timesInTopN : ℕ
  totalVolume : ℚ
  avgPositionInMarket : ℚ
  marketsTraded : List String
  avgTimeToMarket : ℚ
  tradeCount : ℕ
deriving DecidableEq

/-- The online-average update of `analyzeMarkets` (line 207):
`avg = (avg * (tradeCount - 1) + sample) / tradeCount` performed right
after `tradeCount` was incremented.  State is `(average, count)`. -/
def onlineStep (p : ℚ × ℕ) (sample : ℚ) : ℚ × ℕ :=
  let n := p.2 + 1
  ((p.1 * ((n : ℚ) - 1) + sample) / (n : ℚ), n)

/-- Folding the online average over a whole sample list, starting from the
zero-initialised stats. -/
def onlineAvg (samples : List ℚ) : ℚ :=
  (samples.foldl onlineStep (0, 0)).1

/-- The filter of `rankTraders`:
`t.timesFirst >= MIN_FIRST_COUNT || t.timesInTopN >= MIN_FIRST_COUNT * 2`. -/
def qualifies (minFirstCount : ℕ) (t : TraderStats) : Prop :=
  minFirstCount ≤ t.timesFirst ∨ minFirstCount * 2 ≤ t.timesInTopN

instance (m : ℕ) (t : TraderStats) : Decidable (qualifies m t) :=
  inferInstanceAs (Decidable (_ ∨ _))

/-- The comparator of `rankTraders` read as "a may be placed before b":
descending by `timesFirst`, then `timesInTopN`, then `totalVolume`. -/
def rankLe (a b : TraderStats) : Prop :=
  b.timesFirst < a.timesFirst ∨
    (b.timesFirst = a.timesFirst ∧
      (b.timesInTopN < a.timesInTopN ∨
        (b.timesInTopN = a.timesInTopN ∧ b.totalVolume ≤ a.totalVolume)))

instance : DecidableRel rankLe := fun _ _ =>
  inferInstanceAs (Decidable (_ ∨ _))

instance : IsTotal TraderStats rankLe where
  total a b := by
    unfold rankLe
    rcases lt_trichotomy a.timesFirst b.timesFirst with h | h | h
    · exact Or.inr (Or.inl h)
    · rcases lt_trichotomy a.timesInTopN b.timesInTopN with h2 | h2 | h2
      · exact Or.inr (Or.inr ⟨h, Or.inl h2⟩)
      · rcases le_total b.totalVolume a.totalVolume with h3 | h3
        · exact Or.inl (Or.inr ⟨h.symm, Or.inr ⟨h2.symm, h3⟩⟩)
        · exact Or.inr (Or.inr ⟨h, Or.inr ⟨h2, h3⟩⟩)
      · exact Or.inl (Or.inr ⟨h.symm, Or.inl h2⟩)
    · exact Or.inl (Or.inl h)

instance : IsTrans TraderStats rankLe where
  trans a b c hab hbc := by
    unfold rankLe at *
    rcases hab with h1 | ⟨e1, h1⟩ <;> rcases hbc with h2 | ⟨e2, h2⟩
    · exact Or.inl (h2.trans h1)
    · exact Or.inl (e2.trans_lt h1)
    · exact Or.inl (h2.trans_eq e1)
    · refine Or.inr ⟨e2.trans e1, ?_⟩
      rcases h1 with h1 | ⟨f1, h1⟩ <;> rcases h2 with h2 | ⟨f2, h2⟩
      · exact Or.inl (h2.trans h1)
      · exact Or.inl (f2.trans_lt h1)
      · exact Or.inl (h2.trans_eq f1)
      · exact Or.inr ⟨f2.trans f1, h2.trans h1⟩

/-- The ranker `rankTraders`: filter by the leadership threshold, then stable-sort by
the three-key descending comparator.  The JS `Map.values()` insertion
order is the input list order. -/
def rankTraders (minFirstCount : ℕ) (stats : List TraderStats) :
    List TraderStats :=
  List.insertionSort rankLe
    (stats.filter (fun t => decide (qualifies minFirstCount t)))

/-- The three sort keys of a trader, used to state stability. -/
def rankKey (t : TraderStats) : ℕ × ℕ × ℚ :=
  (t.timesFirst, t.timesInTopN, t.totalVolume)

end LeaderFinder

namespace FindFirst

/-- A JavaScript numeric-position value: a genuine number, `undefined`
(a missing field), or `NaN`. -/
inductive JsVal where
  | num : ℚ → JsVal
  | undef : JsVal
  | nan : JsVal
deriving DecidableEq

/-- JavaScript multiplication `x * y`: numbers multiply, anything
non-numeric poisons the result to `NaN`. -/
def jsMul : JsVal → JsVal → JsVal
  | JsVal.num a, JsVal.num b => JsVal.num (a * b)
  | _, _ => JsVal.nan

/-- JavaScript addition on numeric positions (`+=` on a volume total):
numbers add, anything non-numeric gives `NaN`. -/
def jsAdd : JsVal → JsVal → JsVal
  | JsVal.num a, JsVal.num b => JsVal.num (a + b)
  | _, _ => JsVal.nan

/-- A raw activity record as returned by the trade source, before the
normalizing `map` of `fetchMarketTrades`. -/
structure RawActivity where
  transactionHash : Option String
  id : String
  timestamp : ℤ
  proxyWallet : Option String
  side : String
  price : JsVal
  size : JsVal
deriving DecidableEq

/-- The `Trade` interface of the find-first script. -/
structure Trade01 where
  id : String
  timestamp : ℤ
  proxyWallet : Option String
  side : String
  price : JsVal
  size : JsVal
  usdcSize : JsVal
deriving DecidableEq

/-- The normalizing `map` of `fetchMarketTrades` (lines 93–101):
`id: t.transactionHash || t.id`, `proxyWallet: t.proxyWallet?.toLowerCase()`,
`usdcSize: t.size * t.price`, `price` and `size` copied through unchanged. -/
def rawToTrade (t : RawActivity) : Trade01 :=
  { id := match t.transactionHash with
      | some h => if h = "" then t.id else h
      | none => t.id
    timestamp := t.timestamp
    proxyWallet := t.proxyWallet.map String.toLower
    side := t.side
    price := t.price
    size := t.size
    usdcSize := jsMul t.size t.price }

/-- The function `fetchMarketTrades` on an already-fetched raw response: the normalizer
applied to every record.  A failed fetch is the empty list. -/
def fetchMarketTrades (raw : List RawActivity) : List Trade01 :=
  raw.map rawToTrade

/-- The per-trader accumulator of the `traderOrder` map (lines 157–173). -/
structure TraderAcc where
  firstTrade : Trade01
  totalVolume : JsVal
  tradeCount : ℕ
deriving DecidableEq

/-- Association-list lookup mirroring `traderOrder.get`/`has`. -/
def lookupAcc (acc : List (String × TraderAcc)) (w : String) : Option TraderAcc :=
  match acc with
  | [] => none
  | (a, d) :: rest => if a = w then some d else lookupAcc rest w

/-- The in-place update of an existing entry:
`data.totalVolume += trade.usdcSize; data.tradeCount++`. -/
def bumpAcc (acc : List (String × TraderAcc)) (w : String) (t : Trade01) :
    List (String × TraderAcc) :=
  match acc with
  | [] => []
  | (a, d) :: rest =>
    if a = w then
      (a, { d with totalVolume := jsAdd d.totalVolume t.usdcSize,
                   tradeCount := d.tradeCount + 1 }) :: rest
    else (a, d) :: bumpAcc rest w t

/-- The loop body over `sortedTrades`: skip trades with no `proxyWallet`;
create a first-touch entry on first sight of a wallet (appended, i.e. in
order of first appearance), otherwise add to its volume and count. -/
def traderOrderStep (acc : List (String × TraderAcc)) (t : Trade01) :
    List (String × TraderAcc) :=
  match t.proxyWallet with
  | none => acc
  | some w =>
    match lookupAcc acc w with
    | none => acc ++ [(w, ⟨t, t.usdcSize, 1⟩)]
    | some _ => bumpAcc acc w t

/-- The whole `traderOrder` construction over the (sorted) trade list. -/
def buildTraderOrder (ts : List Trade01) : List (String × TraderAcc) :=
  ts.foldl traderOrderStep []

/-- The trades of one wallet, in list order. -/
def walletTrades (ts : List Trade01) (w : String) : List Trade01 :=
  ts.filter (fun t => t.proxyWallet == some w)

/-- Total `usdcSize` of a trade list under JavaScript addition. -/
def sumUsd (start : JsVal) (ts : List Trade01) : JsVal :=
  ts.foldl (fun v t => jsAdd v t.usdcSize) start

end FindFirst

namespace CompareTraders

/-!
Heap model of the mutating part of `findMatchingTrades` (the grouping loop
of lines 176–189 and the in-place `trades.sort` of line 207).  JavaScript
arrays are references into a heap; the input trade arrays are existing
references, while every per-condition list is allocated fresh by
`conditionMap.set(trader.address, [])`.  The heap maps reference numbers
to trade arrays; allocation hands out `next` and bumps it.
-/

/-- A heap of JavaScript arrays of trades: `heap r` is the array behind
reference `r`; references below `next` are allocated. -/
structure HeapSt where
  heap : ℕ → List Trade
  next : ℕ

/-- Overwrite the array behind reference `r`. -/
def setRef (s : HeapSt) (r : ℕ) (v : List Trade) : HeapSt :=
  ⟨fun i => if i = r then v else s.heap i, s.next⟩

/-- Allocate a fresh empty array (`[]` literal), returning its reference. -/
def allocRef (s : HeapSt) : ℕ × HeapSt :=
  (s.next, ⟨fun i => if i = s.next then [] else s.heap i, s.next + 1⟩)

/-- The grouping accumulator with array references in place of arrays:
condition id to (trader address to reference of that trader's fresh list). -/
abbrev GroupsAcc := List (String × List (String × ℕ))

/-- Find or create the inner per-trader entry, allocating a fresh array
when the trader is new for this condition.  Returns the entry's reference,
the new heap, and the new inner map. -/
def ensureInner (s : HeapSt) (m : List (String × ℕ)) (addr : String) :
    ℕ × HeapSt × List (String × ℕ) :=
  match m with
  | [] => ((allocRef s).1, (allocRef s).2, [(addr, (allocRef s).1)])
  | (a, r) :: rest =>
    if a = addr then (r, s, (a, r) :: rest)
    else
      ((ensureInner s rest addr).1, (ensureInner s rest addr).2.1,
        (a, r) :: (ensureInner s rest addr).2.2)

/-- Find or create the outer per-condition entry. -/
def ensureOuter (s : HeapSt) (gs : GroupsAcc) (cid addr : String) :
    ℕ × HeapSt × GroupsAcc :=
  match gs with
  | [] =>
    ((allocRef s).1, (allocRef s).2, [(cid, [(addr, (allocRef s).1)])])
  | (c, m) :: rest =>
    if c = cid then
      ((ensureInner s m addr).1, (ensureInner s m addr).2.1,
        (c, (ensureInner s m addr).2.2) :: rest)
    else
      ((ensureOuter s rest cid addr).1, (ensureOuter s rest cid addr).2.1,
        (c, m) :: (ensureOuter s rest cid addr).2.2)

/-- The push `conditionMap.get(trader.address)!.push(trade)` on the heap. -/
def pushTradeSt (st : HeapSt × GroupsAcc) (cid addr : String) (t : Trade) :
    HeapSt × GroupsAcc :=
  (setRef (ensureOuter st.1 st.2 cid addr).2.1 (ensureOuter st.1 st.2 cid addr).1
      ((ensureOuter st.1 st.2 cid addr).2.1.heap (ensureOuter st.1 st.2 cid addr).1
        ++ [t]),
    (ensureOuter st.1 st.2 cid addr).2.2)

/-- The grouping loop of lines 176–189, with input trade arrays given as
heap references (`td` pairs an address with the reference of that trader's
trades array). -/
def buildGroupsSt (td : List (String × ℕ)) (s : HeapSt) : HeapSt × GroupsAcc :=
  td.foldl (fun st p =>
    (st.1.heap p.2).foldl (fun st2 t => pushTradeSt st2 t.conditionId p.1 t) st)
    (s, [])

/-- The in-place `trades.sort((a, b) => a.timestamp - b.timestamp)` of
line 207, applied to every per-condition per-trader array. -/
def sortGroupsSt (st : HeapSt × GroupsAcc) : HeapSt :=
  st.2.foldl (fun s g =>
    g.2.foldl (fun s2 p =>
      setRef s2 p.2 (List.insertionSort (fun a b => a.timestamp ≤ b.timestamp) (s2.heap p.2))) s)
    st.1

/-- The mutating phase of `findMatchingTrades` on the heap: build the
per-condition groups, then sort each fresh per-condition array in place. -/
def matchPhaseSt (td : List (String × ℕ)) (s : HeapSt) : HeapSt :=
  sortGroupsSt (buildGroupsSt td s)

/-!  Concrete inputs for the specification's scenarios.  -/

/-- A single `BUY` trade on market `M1` at the given time. -/
def scenTrade (t : ℤ) : Trade :=
  ⟨"t", t, "M1", "M1", "a1", Side.BUY, 1/2, 5, 10, "Yes"⟩

/-- Scenario: `0xaaa` trades `M1` at t=100, `0xbbb` at t=160. -/
def tdLead : List TraderTrades :=
  [⟨"0xaaa", [scenTrade 100]⟩, ⟨"0xbbb", [scenTrade 160]⟩]

/-- Scenario: `0xaaa` at t=100, `0xbbb` at t=4000 (outside a 3600 s window). -/
def tdWide : List TraderTrades :=
  [⟨"0xaaa", [scenTrade 100]⟩, ⟨"0xbbb", [scenTrade 4000]⟩]

/-- Tie scenario: both first trades at t=100, `0xaaa` supplied first. -/
def tdTie : List TraderTrades :=
  [⟨"0xaaa", [scenTrade 100]⟩, ⟨"0xbbb", [scenTrade 100]⟩]

/-- Tie scenario with the two traders supplied in the opposite order. -/
def tdTieRev : List TraderTrades :=
  [⟨"0xbbb", [scenTrade 100]⟩, ⟨"0xaaa", [scenTrade 100]⟩]

/-- A matched-trade participant entry at the given time. -/
def ttE (addr : String) (t : ℤ) : TTEntry :=
  ⟨addr, scenTrade t, t, Side.BUY, 1/2, 5⟩

/-- Scenario market `M1`: `0xccc` leads `0xddd` by 50 s. -/
def m1C4 : MatchedTrade :=
  ⟨"M1", "M1", "Yes", [ttE "0xccc" 100, ttE "0xddd" 150],
    [⟨"0xccc", "0xddd", 50, "0xccc"⟩]⟩

/-- Scenario market `M2`: `0xccc` leads `0xddd` by 20 s. -/
def m2C4 : MatchedTrade :=
  ⟨"M2", "M2", "Yes", [ttE "0xccc" 300, ttE "0xddd" 320],
    [⟨"0xccc", "0xddd", 20, "0xccc"⟩]⟩

/-- Scenario market `M3`: `0xccc` follows with gaps of 30 s and 90 s. -/
def m3C4 : MatchedTrade :=
  ⟨"M3", "M3", "Yes", [ttE "0xccc" 200, ttE "0xeee" 170, ttE "0xfff" 110],
    [⟨"0xeee", "0xccc", 30, "0xeee"⟩, ⟨"0xfff", "0xccc", 90, "0xfff"⟩]⟩

/-- The matched markets of the aggregator scenario. -/
def c4Matched : List MatchedTrade := [m1C4, m2C4, m3C4]

/-- The trader of the aggregator scenario. -/
def c4Trader : TraderTrades := ⟨"0xccc", [scenTrade 100]⟩

/-- A single-trader input (no market can have two participants). -/
def tdSingle : List TraderTrades := [⟨"0xaaa", [scenTrade 100]⟩]

/-- A one-reference heap for the frame-property witness. -/
def c10Heap : HeapSt := ⟨fun i => if i = 0 then [scenTrade 100] else [], 1⟩

/-- The trader list for the frame-property witness: one trader whose
trades array is reference 0. -/
def c10Td : List (String × ℕ) := [("0xaaa", 0)]

instance : IsTotal MatchedTrade (fun a b => minTime b ≤ minTime a) :=
  ⟨fun a b => le_total (minTime b) (minTime a)⟩

instance : IsTrans MatchedTrade (fun a b => minTime b ≤ minTime a) :=
  ⟨fun _ _ _ h1 h2 => le_trans h2 h1⟩

end CompareTraders

namespace LeaderFinder

/-- A trader-stats record below every leadership threshold. -/
def c8Stats : List TraderStats := [⟨"0x1", 0, 0, 5, 0, [], 0, 1⟩]

end LeaderFinder

namespace FindFirst

/-- A concrete sorted trade list: wallet `0xa` trades at t=5, one record
at t=6 lacks a wallet, wallet `0xb` trades at t=7. -/
def c3Trades : List Trade01 :=
  [⟨"i1", 5, some "0xa", "BUY", JsVal.num 1, JsVal.num 2, JsVal.num 2⟩,
   ⟨"i2", 6, none, "BUY", JsVal.num 1, JsVal.num 3, JsVal.num 3⟩,
   ⟨"i3", 7, some "0xb", "SELL", JsVal.num 1, JsVal.num 4, JsVal.num 4⟩]

/-- A raw record whose `price` field is not a number. -/
def rawBad : RawActivity :=
  ⟨some "h", "i", 5, some "0xAB", "BUY", JsVal.undef, JsVal.num 2⟩

end FindFirst

namespace LeaderFinder

/-- The fold of `onlineStep` keeps the exact running mean: starting from a
positive count `n` with average `a`, folding a sample list lands at the
combined weighted mean. -/
theorem onlineStep_foldl (l : List ℚ) : ∀ (a : ℚ) (n : ℕ), 0 < n →
    List.foldl onlineStep (a, n) l =
      ((a * n + l.sum) / ((n : ℚ) + l.length), n + l.length) := by
  induction l with
  | nil =>
    intro a n hn
    have hn0 : (n : ℚ) ≠ 0 := by exact_mod_cast hn.ne'
    simp [List.foldl, mul_div_assoc, mul_div_cancel_right₀ _ hn0]
  | cons x xs ih =>
    intro a n hn
    have hn1 : ((n : ℚ) + 1) ≠ 0 := by positivity
    have hstep : onlineStep (a, n) x = ((a * n + x) / ((n : ℚ) + 1), n + 1) := by
      unfold onlineStep
      push_cast
      ring_nf
    have hcancel : (a * n + x) / ((n : ℚ) + 1) * ((n + 1 : ℕ) : ℚ) = a * n + x := by
      push_cast
      field_simp
    rw [List.foldl_cons, hstep, ih _ (n + 1) (Nat.succ_pos n), hcancel]
    have hsum : (x :: xs).sum = x + xs.sum := List.sum_cons
    have hlen : (x :: xs).length = xs.length + 1 := List.length_cons x xs
    rw [hsum, hlen]
    congr 1
    · push_cast
      ring_nf
    · omega

end LeaderFinder

/-- Claim C5: the incremental (online) average maintained by the aggregator
— updating the stored average as `new = (old * (n - 1) + sample) / n` at
each fold step — equals the plain arithmetic mean of all samples folded so
far, as an exact identity over rational arithmetic: for every sample list
the fold state is exactly (sum / length, length), and hence the stored
average after any number of folds is the batch mean of the samples folded
so far. -/
theorem claim_C5_online_average_is_mean (l : List ℚ) :
    List.foldl LeaderFinder.onlineStep (0, 0) l = (l.sum / (l.length : ℚ), l.length) ∧
    LeaderFinder.onlineAvg l = l.sum / (l.length : ℚ) := by
  have hfold : List.foldl LeaderFinder.onlineStep (0, 0) l =
      (l.sum / (l.length : ℚ), l.length) := by
    cases l with
    | nil => simp [LeaderFinder.onlineStep]
    | cons x xs =>
      have hstep : LeaderFinder.onlineStep ((0 : ℚ), 0) x = (x, 1) := by
        unfold LeaderFinder.onlineStep
        norm_num
      rw [List.foldl_cons, hstep, LeaderFinder.onlineStep_foldl xs x 1 one_pos]
      have hsum : (x :: xs).sum = x + xs.sum := List.sum_cons
      have hlen : (x :: xs).length = xs.length + 1 := List.length_cons x xs
      rw [hsum, hlen]
      congr 1
      · push_cast
        ring_nf
      · omega
  exact ⟨hfold, by unfold LeaderFinder.onlineAvg; rw [hfold]⟩

/-- Claim C7: the matched-market list returned by `findMatchingTrades` is
ordered by each market's earliest participant first-trade timestamp, most
recent first: the whole output is pairwise ordered that way, and in
particular every adjacent pair satisfies it. -/
theorem claim_C7_output_most_recent_first (w : ℤ)
    (td : List CompareTraders.TraderTrades) :
    List.Pairwise
      (fun a b => CompareTraders.minTime b ≤ CompareTraders.minTime a)
      (CompareTraders.findMatchingTrades w td) ∧
    List.Chain'
      (fun a b => CompareTraders.minTime b ≤ CompareTraders.minTime a)
      (CompareTraders.findMatchingTrades w td) := by
  have hs : List.Sorted
      (fun a b => CompareTraders.minTime b ≤ CompareTraders.minTime a)
      (CompareTraders.findMatchingTrades w td) := by
    unfold CompareTraders.findMatchingTrades
    exact List.sorted_insertionSort _ _
  exact ⟨hs, List.Pairwise.chain' hs⟩

namespace LeaderFinder

/-- Inserting an element that fails the filter leaves the filtered list
unchanged. -/
theorem filter_orderedInsert_of_neg {α : Type} (r : α → α → Prop)
    [DecidableRel r] (p : α → Bool) (x : α) (hx : p x = false) (l : List α) :
    (List.orderedInsert r x l).filter p = l.filter p := by
  induction l with
  | nil => simp [List.orderedInsert, hx]
  | cons y l ih =>
    by_cases h : r x y
    · simp [List.orderedInsert, h, hx]
    · simp only [List.orderedInsert, if_neg h, List.filter_cons]
      rw [ih]

/-- Inserting an element of a filter class that is `r`-below the whole
class puts it at the head of the filtered list: this is the stability of
`orderedInsert`. -/
theorem filter_orderedInsert_of_pos {α : Type} (r : α → α → Prop)
    [DecidableRel r] (p : α → Bool) (x : α) (hx : p x = true)
    (hcl : ∀ y, p y = true → r x y) (l : List α) :
    (List.orderedInsert r x l).filter p = x :: l.filter p := by
  induction l with
  | nil => simp [List.orderedInsert, hx]
  | cons y l ih =>
    by_cases h : r x y
    · simp [List.orderedInsert, h, hx]
    · have hy : p y = false := by
        cases hpy : p y
        · rfl
        · exact absurd (hcl y hpy) h
      simp [List.orderedInsert, if_neg h, List.filter_cons, hy, ih]

/-- Insertion sort is stable: filtering the sorted list by a class whose
members are mutually related in `r` gives the filtered input unchanged. -/
theorem filter_insertionSort {α : Type} (r : α → α → Prop)
    [DecidableRel r] (p : α → Bool)
    (hcl : ∀ a b, p a = true → p b = true → r a b) (l : List α) :
    (List.insertionSort r l).filter p = l.filter p := by
  induction l with
  | nil => rfl
  | cons x l ih =>
    cases hx : p x
    · rw [List.insertionSort, filter_orderedInsert_of_neg r p x hx, ih,
        List.filter_cons, hx]
      simp
    · rw [List.insertionSort,
        filter_orderedInsert_of_pos r p x hx (fun y hy => hcl x y hx hy), ih,
        List.filter_cons, hx]
      simp

end LeaderFinder

/-- Claim C6: `rankTraders` keeps a trader iff `timesFirst ≥ minFirstCount`
or `timesInTopN ≥ minFirstCount * 2`; orders the kept traders descending by
`timesFirst`, then `timesInTopN`, then `totalVolume` (the relation
`rankLe`); traders tied on all three keys retain their relative input
order (filtering output or qualifying input by any full key triple gives
the same list); and rerunning on the same summary set yields the same
order. -/
theorem claim_C6_rankTraders (m : ℕ) (s : List LeaderFinder.TraderStats) :
    (∀ t, t ∈ LeaderFinder.rankTraders m s ↔
      t ∈ s ∧ (m ≤ t.timesFirst ∨ m * 2 ≤ t.timesInTopN)) ∧
    List.Sorted LeaderFinder.rankLe (LeaderFinder.rankTraders m s) ∧
    (∀ k : ℕ × ℕ × ℚ,
      (LeaderFinder.rankTraders m s).filter
          (fun t => decide (LeaderFinder.rankKey t = k)) =
        (s.filter (fun t => decide (LeaderFinder.qualifies m t))).filter
          (fun t => decide (LeaderFinder.rankKey t = k))) ∧
    LeaderFinder.rankTraders m s = LeaderFinder.rankTraders m s := by
  refine ⟨?_, ?_, ?_, rfl⟩
  · intro t
    unfold LeaderFinder.rankTraders
    rw [List.mem_insertionSort, List.mem_filter]
    simp [LeaderFinder.qualifies]
  · unfold LeaderFinder.rankTraders
    exact List.sorted_insertionSort _ _
  · intro k
    unfold LeaderFinder.rankTraders
    apply LeaderFinder.filter_insertionSort
    intro a b ha hb
    have ha' : LeaderFinder.rankKey a = k := of_decide_eq_true ha
    have hb' : LeaderFinder.rankKey b = k := of_decide_eq_true hb
    have h := ha'.trans hb'.symm
    simp only [LeaderFinder.rankKey, Prod.mk.injEq] at h
    obtain ⟨h1, h2, h3⟩ := h
    exact Or.inr ⟨h1.symm, Or.inr ⟨h2.symm, h3.symm.le⟩⟩

/-- Claim C8: the matcher and the ranker always return plain lists; when no
trader passes the leadership threshold the ranker returns the empty list,
and when no condition yields a surviving pair the matcher returns the
empty list. -/
theorem claim_C8_empty_results :
    (∀ (m : ℕ) (s : List LeaderFinder.TraderStats),
      (∀ t ∈ s, ¬ LeaderFinder.qualifies m t) →
        LeaderFinder.rankTraders m s = []) ∧
    (∀ (w : ℤ) (td : List CompareTraders.TraderTrades),
      (∀ g ∈ CompareTraders.tradesByCondition td,
        CompareTraders.processCondition (w * 3600) g = none) →
      CompareTraders.findMatchingTrades w td = []) := by
  constructor
  · intro m s h
    unfold LeaderFinder.rankTraders
    have hf : s.filter (fun t => decide (LeaderFinder.qualifies m t)) = [] := by
      rw [List.filter_eq_nil_iff]
      intro a ha
      simp [h a ha]
    rw [hf]
    rfl
  · intro w td h
    simp only [CompareTraders.findMatchingTrades]
    have hf : (CompareTraders.tradesByCondition td).filterMap
        (CompareTraders.processCondition (w * 3600)) = [] := by
      rw [List.filterMap_eq_nil_iff]
      exact h
    rw [hf]
    rfl

/-- Witness for claim C8: a below-threshold stats list is ranked to the
empty list, and a single-trader input matches to the empty list. -/
theorem claim_C8_empty_results_witness :
    LeaderFinder.rankTraders 3 LeaderFinder.c8Stats = [] ∧
    CompareTraders.findMatchingTrades 1 CompareTraders.tdSingle = [] :=
  ⟨claim_C8_empty_results.1 3 LeaderFinder.c8Stats (by decide),
   claim_C8_empty_results.2 1 CompareTraders.tdSingle (by decide)⟩

namespace CompareTraders

/-- Membership in the matcher output: a matched trade is returned exactly
for the conditions with at least two participating traders and a nonempty
surviving pair list. -/
theorem mem_findMatchingTrades {w : ℤ} {td : List TraderTrades}
    {m : MatchedTrade} :
    m ∈ findMatchingTrades w td ↔
      ∃ g ∈ tradesByCondition td,
        2 ≤ g.2.length ∧ condTimeDiffs (w * 3600) g.2 ≠ [] ∧
        m = mkMatched (w * 3600) g := by
  simp only [findMatchingTrades]
  rw [List.mem_insertionSort, List.mem_filterMap]
  constructor
  · rintro ⟨g, hg, hp⟩
    unfold processCondition at hp
    by_cases h1 : g.2.length < 2
    · rw [if_pos h1] at hp
      cases hp
    · rw [if_neg h1] at hp
      by_cases h2 : condTimeDiffs (w * 3600) g.2 = []
      · rw [if_pos h2] at hp
        cases hp
      · rw [if_neg h2] at hp
        exact ⟨g, hg, Nat.not_lt.mp h1, h2, (Option.some_inj.mp hp).symm⟩
  · rintro ⟨g, hg, h1, h2, rfl⟩
    refine ⟨g, hg, ?_⟩
    unfold processCondition
    rw [if_neg (by omega), if_neg h2]

end CompareTraders

/-- Claim C1: a pair of participants of a qualifying market produces a gap
record iff the absolute difference of their first-trade timestamps is at
most `timeWindowHours * 3600`; a market appears in the matched output iff
it has at least two participants and at least one surviving pair; and in
the scenario with first trades at t=100 and t=4000 under a 3600 s window
the output is empty. -/
theorem claim_C1_window_filter :
    (∀ (ws : ℤ) (p : CompareTraders.TTEntry × CompareTraders.TTEntry),
      (CompareTraders.mkDiff ws p).isSome ↔
        |p.2.timestamp - p.1.timestamp| ≤ ws) ∧
    (∀ (w : ℤ) (td : List CompareTraders.TraderTrades)
        (m : CompareTraders.MatchedTrade),
      m ∈ CompareTraders.findMatchingTrades w td ↔
        ∃ g ∈ CompareTraders.tradesByCondition td,
          2 ≤ g.2.length ∧
          CompareTraders.condTimeDiffs (w * 3600) g.2 ≠ [] ∧
          m = CompareTraders.mkMatched (w * 3600) g) ∧
    CompareTraders.findMatchingTrades 1 CompareTraders.tdWide = [] := by
  refine ⟨?_, ?_, by decide⟩
  · intro ws p
    simp only [CompareTraders.mkDiff]
    split_ifs with h h2 <;> simp [h]
  · intro w td m
    exact CompareTraders.mem_findMatchingTrades

/-- Claim C2 (amended): in every emitted gap record the leader is the
participant of the pair with the strictly earlier first-trade timestamp;
when the two timestamps are exactly equal the leader is the second trader
of the pair in grouping order (`diff <= 0` picks `t2`), which depends on
the order in which the traders were supplied, not on address order; every
gap record of the output arises from a participant pair this way; and in
the t=100 / t=160 scenario the pair has leader `0xaaa` and delta 60 s. -/
theorem claim_C2_leader_rule :
    (∀ (ws : ℤ) (p : CompareTraders.TTEntry × CompareTraders.TTEntry)
        (d : CompareTraders.TimeDiff),
      CompareTraders.mkDiff ws p = some d →
        d.trader1 = p.1.address ∧ d.trader2 = p.2.address ∧
        d.diffSeconds = p.2.timestamp - p.1.timestamp ∧
        (p.1.timestamp < p.2.timestamp → d.leader = p.1.address) ∧
        (p.2.timestamp < p.1.timestamp → d.leader = p.2.address) ∧
        (p.1.timestamp = p.2.timestamp → d.leader = p.2.address)) ∧
    (∀ (w : ℤ) (td : List CompareTraders.TraderTrades)
        (m : CompareTraders.MatchedTrade) (d : CompareTraders.TimeDiff),
      m ∈ CompareTraders.findMatchingTrades w td → d ∈ m.timeDiffs →
        ∃ p ∈ CompareTraders.allPairs m.traderTrades,
          CompareTraders.mkDiff (w * 3600) p = some d) ∧
    ((CompareTraders.findMatchingTrades 1 CompareTraders.tdLead).headD
        default).timeDiffs = [⟨"0xaaa", "0xbbb", 60, "0xaaa"⟩] := by
  refine ⟨?_, ?_, by decide⟩
  · intro ws p d h
    simp only [CompareTraders.mkDiff] at h
    split_ifs at h with h1 h2
    · obtain rfl := (Option.some_inj.mp h).symm
      refine ⟨rfl, rfl, rfl, ?_, fun _ => rfl, fun _ => rfl⟩
      intro hlt
      exact absurd hlt (by omega)
    · obtain rfl := (Option.some_inj.mp h).symm
      refine ⟨rfl, rfl, rfl, fun _ => rfl, ?_, ?_⟩
      · intro hlt
        exact absurd hlt (by omega)
      · intro heq
        exact absurd heq (by omega)
  · intro w td m d hm hd
    obtain ⟨g, _, _, _, rfl⟩ := CompareTraders.mem_findMatchingTrades.mp hm
    simp only [CompareTraders.mkMatched, CompareTraders.condTimeDiffs] at hd ⊢
    exact List.mem_filterMap.mp hd

/-- Counterexample to claim C2 as stated: with both first trades at t=100,
the emitted leader is `0xbbb` when `0xaaa` is supplied first — not the
lexicographically smaller address — and flips to `0xaaa` when the supply
order is reversed, so the tie-break depends on supply order. -/
theorem claim_C2_counterexample :
    ((CompareTraders.findMatchingTrades 1 CompareTraders.tdTie).headD
        default).timeDiffs.map (fun d => d.leader) = ["0xbbb"] ∧
    ((CompareTraders.findMatchingTrades 1 CompareTraders.tdTieRev).headD
        default).timeDiffs.map (fun d => d.leader) = ["0xaaa"] ∧
    "0xaaa".data < "0xbbb".data := by
  refine ⟨by decide, by decide, by decide⟩

/-- Witness for claim C2: the leader rule applied to the concrete
t=100 / t=160 pair names the strictly earlier trader `0xaaa`. -/
theorem claim_C2_leader_rule_witness :
    (⟨"0xaaa", "0xbbb", 60, "0xaaa"⟩ : CompareTraders.TimeDiff).leader =
      (CompareTraders.ttE "0xaaa" 100).address :=
  (claim_C2_leader_rule.1 3600
      (CompareTraders.ttE "0xaaa" 100, CompareTraders.ttE "0xbbb" 160)
      ⟨"0xaaa", "0xbbb", 60, "0xaaa"⟩ (by decide)).2.2.2.1 (by decide)

namespace CompareTraders

/-- Folding the time-difference loop adds the lead-gap count and total to
the lead fields and the follow-gap count and total to the follow fields,
and leaves the matched count alone. -/
theorem diffStep_foldl (addr : String) (ds : List TimeDiff) :
    ∀ a : SummaryAcc,
    ds.foldl (diffStep addr) a =
      ⟨a.timesFirst + (leadDiffs addr ds).length,
       a.totalLeadTime + (leadDiffs addr ds).sum,
       a.leadCount + (leadDiffs addr ds).length,
       a.totalFollowTime + (followDiffs addr ds).sum,
       a.followCount + (followDiffs addr ds).length,
       a.matchedTradeCount⟩ := by
  induction ds with
  | nil =>
    intro a
    simp [leadDiffs, followDiffs]
  | cons d ds ih =>
    intro a
    rw [List.foldl_cons]
    by_cases ht : d.trader1 ≠ addr ∧ d.trader2 ≠ addr
    · have hfl : (d.trader1 == addr || d.trader2 == addr) = false := by
        simp [ht.1, ht.2]
      have hstep : diffStep addr a d = a := by
        rw [diffStep, if_pos ht]
      rw [hstep, ih]
      simp [leadDiffs, followDiffs, List.filter_cons, hfl]
    · have htt : (d.trader1 == addr || d.trader2 == addr) = true := by
        rcases not_and_or.mp ht with h | h
        · simp [not_not.mp h]
        · simp [not_not.mp h]
      by_cases hl : d.leader = addr
      · have hstep : diffStep addr a d =
            ⟨a.timesFirst + 1, a.totalLeadTime + |d.diffSeconds|,
             a.leadCount + 1, a.totalFollowTime, a.followCount,
             a.matchedTradeCount⟩ := by
          rw [diffStep, if_neg ht, if_pos hl]
      
        have hL : leadDiffs addr (d :: ds) =
            |d.diffSeconds| :: leadDiffs addr ds := by
          simp [leadDiffs, List.filter_cons, htt, hl]
        have hF : followDiffs addr (d :: ds) = followDiffs addr ds := by
          simp [followDiffs, List.filter_cons, htt, hl]
        rw [hstep, ih, hL, hF]
        simp only [SummaryAcc.mk.injEq, List.length_cons, List.sum_cons,
          and_true, true_and]
        omega
      · have hstep : diffStep addr a d =
            ⟨a.timesFirst, a.totalLeadTime, a.leadCount,
             a.totalFollowTime + |d.diffSeconds|, a.followCount + 1,
             a.matchedTradeCount⟩ := by
          rw [diffStep, if_neg ht, if_neg hl]
        have hL : leadDiffs addr (d :: ds) = leadDiffs addr ds := by
          simp [leadDiffs, List.filter_cons, htt, hl]
        have hF : followDiffs addr (d :: ds) =
            |d.diffSeconds| :: followDiffs addr ds := by
          simp [followDiffs, List.filter_cons, htt, hl]
        rw [hstep, ih, hL, hF]
        simp only [SummaryAcc.mk.injEq, List.length_cons, List.sum_cons,
          and_true, true_and]
        omega

/-- Splitting the specification-side lead gaps at a head market. -/
theorem leadGaps_cons (addr : String) (m : MatchedTrade)
    (ms : List MatchedTrade) :
    leadGaps addr (m :: ms) =
      (if participates addr m then leadDiffs addr m.timeDiffs else []) ++
        leadGaps addr ms := by
  by_cases hp : participates addr m <;>
    simp [leadGaps, List.filter_cons, hp]

/-- Splitting the specification-side follow gaps at a head market. -/
theorem followGaps_cons (addr : String) (m : MatchedTrade)
    (ms : List MatchedTrade) :
    followGaps addr (m :: ms) =
      (if participates addr m then followDiffs addr m.timeDiffs else []) ++
        followGaps addr ms := by
  by_cases hp : participates addr m <;>
    simp [followGaps, List.filter_cons, hp]

/-- Folding the per-market loop of `calculateSummaries` accumulates exactly
the specification-side gap lists and the participation count. -/
theorem summaryStep_foldl (addr : String) (ms : List MatchedTrade) :
    ∀ acc : SummaryAcc,
    ms.foldl (summaryStep addr) acc =
      ⟨acc.timesFirst + (leadGaps addr ms).length,
       acc.totalLeadTime + (leadGaps addr ms).sum,
       acc.leadCount + (leadGaps addr ms).length,
       acc.totalFollowTime + (followGaps addr ms).sum,
       acc.followCount + (followGaps addr ms).length,
       acc.matchedTradeCount + ms.countP (participates addr)⟩ := by
  induction ms with
  | nil =>
    intro acc
    simp [leadGaps, followGaps]
  | cons m ms ih =>
    intro acc
    rw [List.foldl_cons, leadGaps_cons, followGaps_cons, List.countP_cons]
    cases hf : m.traderTrades.find? (fun t => t.address == addr) with
    | none =>
      have hp : participates addr m = false := by
        simp [participates, hf]
      have hstep : summaryStep addr acc m = acc := by
        simp only [summaryStep, hf]
      rw [hstep, ih]
      simp [hp]
    | some t =>
      have hp : participates addr m = true := by
        simp [participates, hf]
      have hstep : summaryStep addr acc m =
          m.timeDiffs.foldl (diffStep addr)
            { acc with matchedTradeCount := acc.matchedTradeCount + 1 } := by
        simp only [summaryStep, hf]
      rw [hstep, diffStep_foldl, ih]
      simp only [hp, if_true, SummaryAcc.mk.injEq, List.length_append,
        List.sum_append, and_true, true_and]
      omega

/-- The summary `summaryFor` in closed form: the averages are the guarded quotients of
the specification-side gap lists. -/
theorem summaryFor_eq (matched : List MatchedTrade) (tr : TraderTrades) :
    summaryFor matched tr =
      ⟨tr.address, tr.trades.length, matched.countP (participates tr.address),
       (leadGaps tr.address matched).length,
       if 0 < (leadGaps tr.address matched).length then
         ((leadGaps tr.address matched).sum : ℚ) /
           ((leadGaps tr.address matched).length : ℚ)
       else 0,
       if 0 < (followGaps tr.address matched).length then
         ((followGaps tr.address matched).sum : ℚ) /
           ((followGaps tr.address matched).length : ℚ)
       else 0⟩ := by
  simp only [summaryFor]
  rw [summaryStep_foldl]
  simp

end CompareTraders

/-- Claim C4: in every summary produced by `calculateSummaries`,
`avgLeadTimeSeconds` is the arithmetic mean of the absolute gaps of the
records in which the trader leads, `avgFollowTimeSeconds` the mean over
the records in which the trader appears but does not lead, the zero-count
cases give exactly 0 (no undefined value can arise: the quotient is taken
only behind a positive-count guard), and the scenario with follow gaps of
30 s and 90 s and two led markets yields `avgFollowTimeSeconds = 60` and
`timesFirst = 2`. -/
theorem claim_C4_summary_averages (matched : List CompareTraders.MatchedTrade)
    (td : List CompareTraders.TraderTrades)
    (s : CompareTraders.ComparisonSummary)
    (hs : s ∈ CompareTraders.calculateSummaries matched td) :
    s.timesFirst = (CompareTraders.leadGaps s.trader matched).length ∧
    s.avgLeadTimeSeconds =
      ((CompareTraders.leadGaps s.trader matched).sum : ℚ) /
        ((CompareTraders.leadGaps s.trader matched).length : ℚ) ∧
    s.avgFollowTimeSeconds =
      ((CompareTraders.followGaps s.trader matched).sum : ℚ) /
        ((CompareTraders.followGaps s.trader matched).length : ℚ) ∧
    (CompareTraders.leadGaps s.trader matched = [] →
      s.avgLeadTimeSeconds = 0) ∧
    (CompareTraders.followGaps s.trader matched = [] →
      s.avgFollowTimeSeconds = 0) ∧
    (CompareTraders.summaryFor CompareTraders.c4Matched
        CompareTraders.c4Trader).avgFollowTimeSeconds = 60 ∧
    (CompareTraders.summaryFor CompareTraders.c4Matched
        CompareTraders.c4Trader).timesFirst = 2 := by
  obtain ⟨tr, htr, rfl⟩ : ∃ tr ∈ td, CompareTraders.summaryFor matched tr = s := by
    unfold CompareTraders.calculateSummaries at hs
    rw [List.mem_insertionSort, List.mem_map] at hs
    exact hs
  have e := CompareTraders.summaryFor_eq matched tr
  have et : (CompareTraders.summaryFor matched tr).trader = tr.address := by
    rw [e]
  have etf : (CompareTraders.summaryFor matched tr).timesFirst =
      (CompareTraders.leadGaps tr.address matched).length := by
    rw [e]
  have eal : (CompareTraders.summaryFor matched tr).avgLeadTimeSeconds =
      if 0 < (CompareTraders.leadGaps tr.address matched).length then
        ((CompareTraders.leadGaps tr.address matched).sum : ℚ) /
          ((CompareTraders.leadGaps tr.address matched).length : ℚ)
      else 0 := by
    rw [e]
  have eaf : (CompareTraders.summaryFor matched tr).avgFollowTimeSeconds =
      if 0 < (CompareTraders.followGaps tr.address matched).length then
        ((CompareTraders.followGaps tr.address matched).sum : ℚ) /
          ((CompareTraders.followGaps tr.address matched).length : ℚ)
      else 0 := by
    rw [e]
  have e2 := CompareTraders.summaryFor_eq CompareTraders.c4Matched
    CompareTraders.c4Trader
  have hL2 : CompareTraders.leadGaps CompareTraders.c4Trader.address
      CompareTraders.c4Matched = [50, 20] := by decide
  have hF2 : CompareTraders.followGaps CompareTraders.c4Trader.address
      CompareTraders.c4Matched = [30, 90] := by decide
  refine ⟨?_, ?_, ?_, ?_, ?_, ?_, ?_⟩
  · rw [et, etf]
  · rw [et, eal]
    cases hL : CompareTraders.leadGaps tr.address matched with
    | nil => simp [hL]
    | cons x xs => simp [hL]
  · rw [et, eaf]
    cases hF : CompareTraders.followGaps tr.address matched with
    | nil => simp [hF]
    | cons x xs => simp [hF]
  · intro hL
    rw [et] at hL
    rw [eal, hL]
    simp
  · intro hF
    rw [et] at hF
    rw [eaf, hF]
    simp
  · have ea2 : (CompareTraders.summaryFor CompareTraders.c4Matched
        CompareTraders.c4Trader).avgFollowTimeSeconds =
        if 0 < (CompareTraders.followGaps CompareTraders.c4Trader.address
            CompareTraders.c4Matched).length then
          ((CompareTraders.followGaps CompareTraders.c4Trader.address
              CompareTraders.c4Matched).sum : ℚ) /
            ((CompareTraders.followGaps CompareTraders.c4Trader.address
                CompareTraders.c4Matched).length : ℚ)
        else 0 := by
      rw [e2]
    rw [ea2, hF2]
    norm_num
  · have et2 : (CompareTraders.summaryFor CompareTraders.c4Matched
        CompareTraders.c4Trader).timesFirst =
        (CompareTraders.leadGaps CompareTraders.c4Trader.address
          CompareTraders.c4Matched).length := by
      rw [e2]
    rw [et2, hL2]
    rfl

/-- Witness for claim C4: the summary of the scenario trader has
`timesFirst` equal to the number of its lead gap records. -/
theorem claim_C4_summary_averages_witness :
    (CompareTraders.summaryFor CompareTraders.c4Matched
        CompareTraders.c4Trader).timesFirst =
      (CompareTraders.leadGaps
        (CompareTraders.summaryFor CompareTraders.c4Matched
          CompareTraders.c4Trader).trader CompareTraders.c4Matched).length :=
  (claim_C4_summary_averages CompareTraders.c4Matched [CompareTraders.c4Trader]
    (CompareTraders.summaryFor CompareTraders.c4Matched CompareTraders.c4Trader)
    (List.Mem.head _)).1

namespace FindFirst

/-- Records without a wallet are skipped by the grouper fold, from any
starting accumulator. -/
theorem foldl_traderOrderStep_filter (ts : List Trade01) :
    ∀ acc : List (String × TraderAcc),
    ts.foldl traderOrderStep acc =
      (ts.filter (fun t => t.proxyWallet.isSome)).foldl traderOrderStep acc := by
  induction ts with
  | nil => intro acc; rfl
  | cons t ts ih =>
    intro acc
    rw [List.foldl_cons, List.filter_cons]
    cases hw : t.proxyWallet with
    | none =>
      have hstep : traderOrderStep acc t = acc := by
        simp only [traderOrderStep, hw]
      rw [hstep, if_neg (by simp)]
      exact ih acc
    | some w =>
      rw [if_pos (by simp), List.foldl_cons]
      exact ih _

end FindFirst

/-- Counterexample to claim C9 as stated: the trade normalizer does not
coerce numeric fields — a raw record with a non-numeric `price` keeps it
unchanged (not 0.0), and its derived usd value is NaN, not 0.0. -/
theorem claim_C9_counterexample :
    (FindFirst.rawToTrade FindFirst.rawBad).price = FindFirst.JsVal.undef ∧
    FindFirst.JsVal.undef ≠ FindFirst.JsVal.num 0 ∧
    (FindFirst.rawToTrade FindFirst.rawBad).usdcSize = FindFirst.JsVal.nan ∧
    FindFirst.JsVal.nan ≠ FindFirst.JsVal.num 0 :=
  ⟨rfl, by decide, rfl, by decide⟩

/-- Claim C9 (amended): the record normalizer lower-cases trader addresses
and passes `price` and `size` through without coercion; the usd value is
the JavaScript product `size * price` (NaN when either factor is
non-numeric, never 0.0); and records lacking a trader identifier
contribute to no trader's statistics — the grouper ignores them entirely
and no error is raised (the normalizer and grouper are total functions). -/
theorem claim_C9_normalizer (raw : List FindFirst.RawActivity) :
    FindFirst.fetchMarketTrades raw = raw.map FindFirst.rawToTrade ∧
    (∀ r : FindFirst.RawActivity,
      (FindFirst.rawToTrade r).proxyWallet = r.proxyWallet.map String.toLower ∧
      (FindFirst.rawToTrade r).price = r.price ∧
      (FindFirst.rawToTrade r).size = r.size ∧
      (FindFirst.rawToTrade r).usdcSize = FindFirst.jsMul r.size r.price) ∧
    (∀ ts : List FindFirst.Trade01,
      FindFirst.buildTraderOrder ts =
        FindFirst.buildTraderOrder
          (ts.filter (fun t => t.proxyWallet.isSome))) := by
  refine ⟨rfl, fun r => ⟨rfl, rfl, rfl, rfl⟩, fun ts => ?_⟩
  exact FindFirst.foldl_traderOrderStep_filter ts []

namespace FindFirst

/-- Looking up the bumped key returns the bumped record. -/
theorem lookupAcc_bump_self (w : String) (t : Trade01) :
    ∀ acc : List (String × TraderAcc),
    lookupAcc (bumpAcc acc w t) w =
      (lookupAcc acc w).map (fun d =>
        ⟨d.firstTrade, jsAdd d.totalVolume t.usdcSize, d.tradeCount + 1⟩) := by
  intro acc
  induction acc with
  | nil => rfl
  | cons hd rest ih =>
    obtain ⟨a, d⟩ := hd
    by_cases h : a = w
    · simp [bumpAcc, lookupAcc, h]
    · simp [bumpAcc, lookupAcc, h, ih]

/-- Bumping one key does not change lookups of another key. -/
theorem lookupAcc_bump_other (v w : String) (t : Trade01) (hvw : v ≠ w) :
    ∀ acc : List (String × TraderAcc),
    lookupAcc (bumpAcc acc v t) w = lookupAcc acc w := by
  intro acc
  induction acc with
  | nil => rfl
  | cons hd rest ih =>
    obtain ⟨a, d⟩ := hd
    by_cases hav : a = v
    · subst hav
      simp [bumpAcc, lookupAcc, hvw, ih]
    · by_cases haw : a = w
      · simp [bumpAcc, lookupAcc, hav, haw, Ne.symm hvw]
      · simp [bumpAcc, lookupAcc, hav, haw, ih]

/-- Lookup after appending a single new entry at the end. -/
theorem lookupAcc_append (w a : String) (d : TraderAcc) :
    ∀ acc : List (String × TraderAcc),
    lookupAcc (acc ++ [(a, d)]) w =
      match lookupAcc acc w with
      | some x => some x
      | none => if a = w then some d else none := by
  intro acc
  induction acc with
  | nil => rfl
  | cons hd rest ih =>
    obtain ⟨b, x⟩ := hd
    by_cases hbw : b = w
    · simp [lookupAcc, hbw]
    · simp [lookupAcc, hbw, ih]

/-- Characterisation of the grouper fold: the entry of a wallet after
folding a trade list over any accumulator.  A pre-existing entry keeps its
`firstTrade` and accumulates the wallet's volume and count; a new entry is
created from the wallet's first trade in list order. -/
theorem lookupAcc_foldl (ts : List Trade01) :
    ∀ (acc : List (String × TraderAcc)) (w : String),
    lookupAcc (ts.foldl traderOrderStep acc) w =
      match lookupAcc acc w with
      | some d => some ⟨d.firstTrade, sumUsd d.totalVolume (walletTrades ts w),
          d.tradeCount + (walletTrades ts w).length⟩
      | none =>
        match walletTrades ts w with
        | [] => none
        | f :: rest => some ⟨f, sumUsd f.usdcSize rest, 1 + rest.length⟩ := by
  induction ts with
  | nil =>
    intro acc w
    cases h : lookupAcc acc w with
    | none => simp [walletTrades, h]
    | some d => simp [walletTrades, sumUsd, h]
  | cons t ts ih =>
    intro acc w
    rw [List.foldl_cons]
    cases hw : t.proxyWallet with
    | none =>
      have hstep : traderOrderStep acc t = acc := by
        simp only [traderOrderStep, hw]
      have hwt : walletTrades (t :: ts) w = walletTrades ts w := by
        simp [walletTrades, List.filter_cons, hw]
      rw [hstep, ih, hwt]
    | some v =>
      by_cases hv : v = w
      · subst hv
        have hwt : walletTrades (t :: ts) v = t :: walletTrades ts v := by
          simp [walletTrades, List.filter_cons, hw]
        cases hl : lookupAcc acc v with
        | some d =>
          have hstep : traderOrderStep acc t = bumpAcc acc v t := by
            simp only [traderOrderStep, hw, hl]
          rw [hstep, ih, lookupAcc_bump_self, hl, hwt]
          simp only [Option.map_some]
          simp [sumUsd, TraderAcc.mk.injEq, List.length_cons]
          omega
        | none =>
          have hstep : traderOrderStep acc t =
              acc ++ [(v, ⟨t, t.usdcSize, 1⟩)] := by
            simp only [traderOrderStep, hw, hl]
          rw [hstep, ih, lookupAcc_append, hl, hwt]
          simp
      · have hwt : walletTrades (t :: ts) w = walletTrades ts w := by
          simp [walletTrades, List.filter_cons, hw, hv]
        have hlk : lookupAcc (traderOrderStep acc t) w = lookupAcc acc w := by
          simp only [traderOrderStep, hw]
          cases hl : lookupAcc acc v with
          | none =>
            rw [lookupAcc_append]
            cases h2 : lookupAcc acc w <;> simp [h2, hv]
          | some d => exact lookupAcc_bump_other v w t hv acc
        rw [ih, hlk, hwt]

end FindFirst

/-- Claim C3: given trades processed in ascending timestamp order, the
first-touch record of a wallet holds that wallet's earliest trade (its
`firstTrade`, and hence the recorded timestamp, side and price, comes from
the wallet's minimum-timestamp trade), and folding further trades only
adds to the cumulative volume and trade count while leaving `firstTrade`
unchanged. -/
theorem claim_C3_first_touch :
    (∀ (ts : List FindFirst.Trade01) (w : String) (d : FindFirst.TraderAcc),
      List.Pairwise (fun a b : FindFirst.Trade01 => a.timestamp ≤ b.timestamp) ts →
      FindFirst.lookupAcc (FindFirst.buildTraderOrder ts) w = some d →
        d.firstTrade ∈ ts ∧ d.firstTrade.proxyWallet = some w ∧
        ∀ t ∈ ts, t.proxyWallet = some w →
          d.firstTrade.timestamp ≤ t.timestamp) ∧
    (∀ (l1 l2 : List FindFirst.Trade01) (w : String) (d : FindFirst.TraderAcc),
      FindFirst.lookupAcc (FindFirst.buildTraderOrder l1) w = some d →
      FindFirst.lookupAcc (FindFirst.buildTraderOrder (l1 ++ l2)) w =
        some ⟨d.firstTrade,
          FindFirst.sumUsd d.totalVolume (FindFirst.walletTrades l2 w),
          d.tradeCount + (FindFirst.walletTrades l2 w).length⟩) := by
  constructor
  · intro ts w d hsort hlook
    have h : FindFirst.lookupAcc (FindFirst.buildTraderOrder ts) w =
        match FindFirst.walletTrades ts w with
        | [] => none
        | f :: rest =>
          some ⟨f, FindFirst.sumUsd f.usdcSize rest, 1 + rest.length⟩ :=
      FindFirst.lookupAcc_foldl ts [] w
    rw [h] at hlook
    cases hwt : FindFirst.walletTrades ts w with
    | nil =>
      rw [hwt] at hlook
      cases hlook
    | cons f rest =>
      rw [hwt] at hlook
      obtain rfl := (Option.some_inj.mp hlook).symm
      have hfmem : f ∈ FindFirst.walletTrades ts w := by
        rw [hwt]
        exact List.mem_cons_self _ _
      have hf2 := List.mem_filter.mp hfmem
      refine ⟨hf2.1, by simpa using hf2.2, ?_⟩
      intro t ht hw2
      have htmem : t ∈ FindFirst.walletTrades ts w :=
        List.mem_filter.mpr ⟨ht, by simp [hw2]⟩
      rw [hwt] at htmem
      rcases List.mem_cons.mp htmem with rfl | hrest
      · exact le_refl _
      · have hsf : List.Pairwise
            (fun a b : FindFirst.Trade01 => a.timestamp ≤ b.timestamp)
            (FindFirst.walletTrades ts w) := List.Pairwise.filter _ hsort
        rw [hwt] at hsf
        exact (List.pairwise_cons.mp hsf).1 t hrest
  · intro l1 l2 w d hl
    have happ : FindFirst.buildTraderOrder (l1 ++ l2) =
        l2.foldl FindFirst.traderOrderStep (FindFirst.buildTraderOrder l1) := by
      simp [FindFirst.buildTraderOrder, List.foldl_append]
    rw [happ, FindFirst.lookupAcc_foldl l2 (FindFirst.buildTraderOrder l1) w, hl]

/-- Witness for claim C3: in the concrete sorted list `c3Trades`, wallet
`0xa`'s entry holds its t=5 trade — a member carrying the wallet with the
minimum timestamp among the wallet's trades — and appending further trades
keeps that first trade while adding the appended wallet volume and count. -/
theorem claim_C3_first_touch_witness :
    ((⟨"i1", 5, some "0xa", "BUY", FindFirst.JsVal.num 1, FindFirst.JsVal.num 2,
        FindFirst.JsVal.num 2⟩ : FindFirst.Trade01) ∈ FindFirst.c3Trades ∧
      (some "0xa" : Option String) = some "0xa" ∧
      ∀ t ∈ FindFirst.c3Trades, t.proxyWallet = some "0xa" →
        (5 : ℤ) ≤ t.timestamp) ∧
    FindFirst.lookupAcc
        (FindFirst.buildTraderOrder (FindFirst.c3Trades ++ FindFirst.c3Trades))
        "0xa" =
      some ⟨⟨"i1", 5, some "0xa", "BUY", FindFirst.JsVal.num 1,
          FindFirst.JsVal.num 2, FindFirst.JsVal.num 2⟩,
        FindFirst.sumUsd (FindFirst.JsVal.num 2)
          (FindFirst.walletTrades FindFirst.c3Trades "0xa"),
        1 + (FindFirst.walletTrades FindFirst.c3Trades "0xa").length⟩ :=
  ⟨claim_C3_first_touch.1 FindFirst.c3Trades "0xa"
      ⟨⟨"i1", 5, some "0xa", "BUY", FindFirst.JsVal.num 1, FindFirst.JsVal.num 2,
          FindFirst.JsVal.num 2⟩, FindFirst.JsVal.num 2, 1⟩
      (by decide) (by decide),
   claim_C3_first_touch.2 FindFirst.c3Trades FindFirst.c3Trades "0xa"
      ⟨⟨"i1", 5, some "0xa", "BUY", FindFirst.JsVal.num 1, FindFirst.JsVal.num 2,
          FindFirst.JsVal.num 2⟩, FindFirst.JsVal.num 2, 1⟩
      (by decide)⟩

namespace CompareTraders

/-- The helper `ensureInner` preserves the heap below the old `next`, only grows
`next`, keeps all references of the inner map between `lo` and the new
`next`, and returns a reference in the same range. -/
theorem ensureInner_ok (lo : ℕ) (s : HeapSt) (addr : String) :
    ∀ m : List (String × ℕ),
    (∀ p ∈ m, lo ≤ p.2 ∧ p.2 < s.next) → lo ≤ s.next →
    s.next ≤ (ensureInner s m addr).2.1.next ∧
    (∀ i < s.next, (ensureInner s m addr).2.1.heap i = s.heap i) ∧
    (∀ p ∈ (ensureInner s m addr).2.2,
      lo ≤ p.2 ∧ p.2 < (ensureInner s m addr).2.1.next) ∧
    lo ≤ (ensureInner s m addr).1 ∧
    (ensureInner s m addr).1 < (ensureInner s m addr).2.1.next := by
  intro m
  induction m with
  | nil =>
    intro _ hlo
    refine ⟨Nat.le_succ _, ?_, ?_, hlo, Nat.lt_succ_self _⟩
    · intro i hi
      show (if i = s.next then ([] : List Trade) else s.heap i) = s.heap i
      rw [if_neg (Nat.ne_of_lt hi)]
    · intro p hp
      simp only [ensureInner, List.mem_singleton] at hp
      subst hp
      exact ⟨hlo, Nat.lt_succ_self _⟩
  | cons hd rest ih =>
    intro hm hlo
    obtain ⟨a, r0⟩ := hd
    by_cases ha : a = addr
    · have he : ensureInner s ((a, r0) :: rest) addr =
          (r0, s, (a, r0) :: rest) := by
        simp [ensureInner, ha]
      rw [he]
      have h0 := hm (a, r0) (List.mem_cons_self _ _)
      exact ⟨le_refl _, fun i _ => rfl, fun p hp => hm p hp, h0.1, h0.2⟩
    · have he : ensureInner s ((a, r0) :: rest) addr =
          ((ensureInner s rest addr).1, (ensureInner s rest addr).2.1,
            (a, r0) :: (ensureInner s rest addr).2.2) := by
        simp [ensureInner, ha]
      rw [he]
      obtain ⟨h1, h2, h3, h4, h5⟩ :=
        ih (fun p hp => hm p (List.mem_cons_of_mem _ hp)) hlo
      refine ⟨h1, h2, ?_, h4, h5⟩
      intro p hp
      rcases List.mem_cons.mp hp with rfl | hp2
      · have h0 := hm (a, r0) (List.mem_cons_self _ _)
        exact ⟨h0.1, lt_of_lt_of_le h0.2 h1⟩
      · exact h3 p hp2

/-- The helper `ensureOuter` preserves the heap below the old `next`, only grows
`next`, keeps every reference of the groups map between `lo` and the new
`next`, and returns a reference in the same range. -/
theorem ensureOuter_ok (lo : ℕ) (s : HeapSt) (cid addr : String) :
    ∀ gs : GroupsAcc,
    (∀ g ∈ gs, ∀ p ∈ g.2, lo ≤ p.2 ∧ p.2 < s.next) → lo ≤ s.next →
    s.next ≤ (ensureOuter s gs cid addr).2.1.next ∧
    (∀ i < s.next, (ensureOuter s gs cid addr).2.1.heap i = s.heap i) ∧
    (∀ g ∈ (ensureOuter s gs cid addr).2.2, ∀ p ∈ g.2,
      lo ≤ p.2 ∧ p.2 < (ensureOuter s gs cid addr).2.1.next) ∧
    lo ≤ (ensureOuter s gs cid addr).1 ∧
    (ensureOuter s gs cid addr).1 < (ensureOuter s gs cid addr).2.1.next := by
  intro gs
  induction gs with
  | nil =>
    intro _ hlo
    refine ⟨Nat.le_succ _, ?_, ?_, hlo, Nat.lt_succ_self _⟩
    · intro i hi
      show (if i = s.next then ([] : List Trade) else s.heap i) = s.heap i
      rw [if_neg (Nat.ne_of_lt hi)]
    · intro g hg p hp
      simp only [ensureOuter, List.mem_singleton] at hg
      subst hg
      simp only [List.mem_singleton] at hp
      subst hp
      exact ⟨hlo, Nat.lt_succ_self _⟩
  | cons hd rest ih =>
    intro hgs hlo
    obtain ⟨c, m⟩ := hd
    by_cases hc : c = cid
    · have he : ensureOuter s ((c, m) :: rest) cid addr =
          ((ensureInner s m addr).1, (ensureInner s m addr).2.1,
            (c, (ensureInner s m addr).2.2) :: rest) := by
        simp [ensureOuter, hc]
      rw [he]
      obtain ⟨h1, h2, h3, h4, h5⟩ := ensureInner_ok lo s addr m
        (hgs (c, m) (List.mem_cons_self _ _)) hlo
      refine ⟨h1, h2, ?_, h4, h5⟩
      intro g hg p hp
      rcases List.mem_cons.mp hg with rfl | hg2
      · exact h3 p hp
      · have h0 := hgs g (List.mem_cons_of_mem _ hg2) p hp
        exact ⟨h0.1, lt_of_lt_of_le h0.2 h1⟩
    · have he : ensureOuter s ((c, m) :: rest) cid addr =
          ((ensureOuter s rest cid addr).1, (ensureOuter s rest cid addr).2.1,
            (c, m) :: (ensureOuter s rest cid addr).2.2) := by
        simp [ensureOuter, hc]
      rw [he]
      obtain ⟨h1, h2, h3, h4, h5⟩ :=
        ih (fun g hg => hgs g (List.mem_cons_of_mem _ hg)) hlo
      refine ⟨h1, h2, ?_, h4, h5⟩
      intro g hg p hp
      rcases List.mem_cons.mp hg with rfl | hg2
      · have h0 := hgs (c, m) (List.mem_cons_self _ _) p hp
        exact ⟨h0.1, lt_of_lt_of_le h0.2 h1⟩
      · exact h3 g hg2 p hp

/-- One push on the heap: `next` only grows, the heap below `lo` is
untouched (the written reference is at or above `lo`), and all group
references stay in range. -/
theorem pushTradeSt_ok (lo : ℕ) (cid addr : String) (t : Trade)
    (st : HeapSt × GroupsAcc)
    (hgs : ∀ g ∈ st.2, ∀ p ∈ g.2, lo ≤ p.2 ∧ p.2 < st.1.next)
    (hlo : lo ≤ st.1.next) :
    st.1.next ≤ (pushTradeSt st cid addr t).1.next ∧
    (∀ i < lo, (pushTradeSt st cid addr t).1.heap i = st.1.heap i) ∧
    (∀ g ∈ (pushTradeSt st cid addr t).2, ∀ p ∈ g.2,
      lo ≤ p.2 ∧ p.2 < (pushTradeSt st cid addr t).1.next) ∧
    lo ≤ (pushTradeSt st cid addr t).1.next := by
  obtain ⟨h1, h2, h3, h4, h5⟩ := ensureOuter_ok lo st.1 cid addr st.2 hgs hlo
  refine ⟨h1, ?_, ?_, le_trans hlo h1⟩
  · intro i hi
    have hne : i ≠ (ensureOuter st.1 st.2 cid addr).1 :=
      Nat.ne_of_lt (lt_of_lt_of_le hi h4)
    show (if i = (ensureOuter st.1 st.2 cid addr).1 then _ else _) = _
    rw [if_neg hne]
    exact h2 i (lt_of_lt_of_le hi hlo)
  · intro g hg p hp
    exact h3 g hg p hp

/-- The per-trader push loop keeps the invariant: `next` grows, the heap
below `lo` is untouched, group references stay in range. -/
theorem pushLoop_ok (lo : ℕ) (addr : String) (ts : List Trade) :
    ∀ st : HeapSt × GroupsAcc,
    (∀ g ∈ st.2, ∀ p ∈ g.2, lo ≤ p.2 ∧ p.2 < st.1.next) → lo ≤ st.1.next →
    st.1.next ≤
      (ts.foldl (fun st2 t => pushTradeSt st2 t.conditionId addr t) st).1.next ∧
    (∀ i < lo,
      (ts.foldl (fun st2 t => pushTradeSt st2 t.conditionId addr t) st).1.heap i
        = st.1.heap i) ∧
    (∀ g ∈ (ts.foldl (fun st2 t => pushTradeSt st2 t.conditionId addr t) st).2,
      ∀ p ∈ g.2, lo ≤ p.2 ∧
        p.2 < (ts.foldl (fun st2 t => pushTradeSt st2 t.conditionId addr t) st).1.next) ∧
    lo ≤ (ts.foldl (fun st2 t => pushTradeSt st2 t.conditionId addr t) st).1.next := by
  induction ts with
  | nil =>
    intro st hgs hlo
    exact ⟨le_refl _, fun i _ => rfl, hgs, hlo⟩
  | cons t ts ih =>
    intro st hgs hlo
    rw [List.foldl_cons]
    obtain ⟨p1, p2, p3, p4⟩ := pushTradeSt_ok lo t.conditionId addr t st hgs hlo
    obtain ⟨q1, q2, q3, q4⟩ := ih (pushTradeSt st t.conditionId addr t) p3 p4
    exact ⟨le_trans p1 q1, fun i hi => (q2 i hi).trans (p2 i hi), q3, q4⟩

/-- The whole grouping loop keeps the invariant. -/
theorem buildLoop_ok (lo : ℕ) (td : List (String × ℕ)) :
    ∀ st : HeapSt × GroupsAcc,
    (∀ g ∈ st.2, ∀ p ∈ g.2, lo ≤ p.2 ∧ p.2 < st.1.next) → lo ≤ st.1.next →
    st.1.next ≤
      (td.foldl (fun st p =>
        (st.1.heap p.2).foldl (fun st2 t => pushTradeSt st2 t.conditionId p.1 t) st)
        st).1.next ∧
    (∀ i < lo,
      (td.foldl (fun st p =>
        (st.1.heap p.2).foldl (fun st2 t => pushTradeSt st2 t.conditionId p.1 t) st)
        st).1.heap i = st.1.heap i) ∧
    (∀ g ∈ (td.foldl (fun st p =>
        (st.1.heap p.2).foldl (fun st2 t => pushTradeSt st2 t.conditionId p.1 t) st)
        st).2, ∀ p ∈ g.2, lo ≤ p.2 ∧
        p.2 < (td.foldl (fun st p =>
          (st.1.heap p.2).foldl (fun st2 t => pushTradeSt st2 t.conditionId p.1 t) st)
          st).1.next) ∧
    lo ≤ (td.foldl (fun st p =>
      (st.1.heap p.2).foldl (fun st2 t => pushTradeSt st2 t.conditionId p.1 t) st)
      st).1.next := by
  induction td with
  | nil =>
    intro st hgs hlo
    exact ⟨le_refl _, fun i _ => rfl, hgs, hlo⟩
  | cons p td ih =>
    intro st hgs hlo
    rw [List.foldl_cons]
    obtain ⟨p1, p2, p3, p4⟩ := pushLoop_ok lo p.1 (st.1.heap p.2) st hgs hlo
    obtain ⟨q1, q2, q3, q4⟩ := ih _ p3 p4
    exact ⟨le_trans p1 q1, fun i hi => (q2 i hi).trans (p2 i hi), q3, q4⟩

/-- The in-place sorting of one per-condition map touches only references
at or above `lo`. -/
theorem sortInner_pres (lo : ℕ) (m : List (String × ℕ)) :
    ∀ s : HeapSt, (∀ p ∈ m, lo ≤ p.2) →
    ∀ i < lo,
      (m.foldl (fun s2 p => setRef s2 p.2
        (List.insertionSort (fun a b => a.timestamp ≤ b.timestamp)
          (s2.heap p.2))) s).heap i = s.heap i := by
  induction m with
  | nil =>
    intro s _ i _
    rfl
  | cons p m ih =>
    intro s hm i hi
    rw [List.foldl_cons]
    rw [ih _ (fun q hq => hm q (List.mem_cons_of_mem _ hq)) i hi]
    have hne : i ≠ p.2 :=
      Nat.ne_of_lt (lt_of_lt_of_le hi (hm p (List.mem_cons_self _ _)))
    show (if i = p.2 then _ else _) = _
    rw [if_neg hne]

/-- The whole sorting pass touches only references at or above `lo`. -/
theorem sortGroups_pres (lo : ℕ) (gs : GroupsAcc) :
    ∀ s : HeapSt, (∀ g ∈ gs, ∀ p ∈ g.2, lo ≤ p.2) →
    ∀ i < lo,
      (gs.foldl (fun s g =>
        g.2.foldl (fun s2 p => setRef s2 p.2
          (List.insertionSort (fun a b => a.timestamp ≤ b.timestamp)
            (s2.heap p.2))) s) s).heap i = s.heap i := by
  induction gs with
  | nil =>
    intro s _ i _
    rfl
  | cons g gs ih =>
    intro s hgs i hi
    rw [List.foldl_cons]
    rw [ih _ (fun g2 hg2 => hgs g2 (List.mem_cons_of_mem _ hg2)) i hi]
    exact sortInner_pres lo g.2 s (hgs g (List.mem_cons_self _ _)) i hi

end CompareTraders

/-- Claim C10: the mutating phase of `findMatchingTrades` never changes
the input trade arrays: grouping pushes into freshly allocated arrays and
the in-place sort touches only those fresh arrays, so every heap reference
that existed before the call still holds the same trade list afterwards. -/
theorem claim_C10_no_input_mutation (td : List (String × ℕ))
    (s : CompareTraders.HeapSt)
    (hin : ∀ p ∈ td, p.2 < s.next) :
    ∀ p ∈ td,
      (CompareTraders.matchPhaseSt td s).heap p.2 = s.heap p.2 := by
  intro p hp
  obtain ⟨h1, h2, h3, h4⟩ :=
    CompareTraders.buildLoop_ok s.next td (s, []) (by simp) (le_refl _)
  have hgs2 : ∀ g ∈ (CompareTraders.buildGroupsSt td s).2, ∀ q ∈ g.2,
      s.next ≤ q.2 :=
    fun g hg q hq => (h3 g hg q hq).1
  have hsort := CompareTraders.sortGroups_pres s.next
    (CompareTraders.buildGroupsSt td s).2 (CompareTraders.buildGroupsSt td s).1
    hgs2 p.2 (hin p hp)
  calc (CompareTraders.matchPhaseSt td s).heap p.2
      = (CompareTraders.buildGroupsSt td s).1.heap p.2 := hsort
    _ = s.heap p.2 := h2 p.2 (hin p hp)

/-- Witness for claim C10: in a one-reference heap holding one trader's
trades at reference 0, the matching phase leaves reference 0 unchanged. -/
theorem claim_C10_no_input_mutation_witness :
    (CompareTraders.matchPhaseSt CompareTraders.c10Td
        CompareTraders.c10Heap).heap 0 = CompareTraders.c10Heap.heap 0 :=
  claim_C10_no_input_mutation CompareTraders.c10Td CompareTraders.c10Heap
    (by decide) ("0xaaa", 0) (List.mem_cons_self _ _)
